import Mathlib

/-!
Verification of the raster-analysis core of the visioncortex repository:
the binary image engine (`src/shape/image_operations.rs`) and the planar
geometry kernel (`src/path/util.rs`), shallowly embedded in Lean 4.

Machine integers (`u8`, `u32`, `u64`, `usize`) are embedded as `Nat`;
the one numeric cast whose truncation is observable, the final
`as u32` in `significance`, is written as an explicit `% 2 ^ 32`.
`f64` coordinates of the geometry kernel are embedded as exact
rationals `ℚ`; all concrete inputs used below are small dyadics on
which every `f64` operation performed by the code is exact, so the
branch taken by the embedded code coincides with the branch taken by
the compiled code.  Code that panics (a failed `assert_eq!`, an
`unwrap` of `None`, a division by zero) is embedded as `Option`
returning `none`.
-/

namespace VisionCortex

/-- Modelled from the spec: the `BinaryImage` store itself
(`new_w_h`, `get_pixel`, `set_pixel` and the `BitVec` byte
import/export used by the Boolean Algebra layer) is not part of the
supplied sources; spec §3 describes `pixels` as a bit-packed,
row-major sequence of booleans of length ≥ width·height whose
trailing pad bits stay false and are never read.  We store the
row-major boolean sequence directly. -/
structure BinaryImage where
  width : Nat
  height : Nat
  pixels : List Bool
deriving DecidableEq, Repr

namespace BinaryImage

/-- Modelled from the spec (§4.1): all-false canvas of the given size. -/
def new_w_h (w h : Nat) : BinaryImage :=
  { width := w, height := h, pixels := List.replicate (w * h) false }

/-- Modelled from the spec (§3, §4.1): row-major pixel read. -/
def get_pixel (img : BinaryImage) (x y : Nat) : Bool :=
  img.pixels.getD (y * img.width + x) false

/-- Modelled from the spec (§3, §4.1): row-major pixel write. -/
def set_pixel (img : BinaryImage) (x y : Nat) (v : Bool) : BinaryImage :=
  { img with pixels := img.pixels.set (y * img.width + x) v }

/-- The canonical storage invariant: the bit sequence has exactly
`width * height` entries (the form produced by `new_w_h` and by
`set_pixel`; trailing pad bits are then an artifact of byte export
and are always false). -/
def wf (img : BinaryImage) : Prop :=
  img.pixels.length = img.width * img.height

instance (img : BinaryImage) : Decidable img.wf := by
  unfold wf; infer_instance

/-- The value of one packed byte: its bits most-significant first,
as produced by `bit_vec`'s `to_bytes`. -/
def bits2byte (l : List Bool) : Nat :=
  l.foldl (fun acc b => 2 * acc + b.toNat) 0

/-- Modelled from the spec (§3): byte export of the bit sequence,
eight bits per byte, most-significant bit first, the final partial
byte padded with false low-order bits. -/
def to_bytes (l : List Bool) : List Nat :=
  if h : l = [] then []
  else
    bits2byte (l.take 8 ++ List.replicate (8 - (l.take 8).length) false)
      :: to_bytes (l.drop 8)
termination_by l.length
decreasing_by
  simp only [List.length_drop]
  cases l with
  | nil => exact absurd rfl h
  | cons a t => simp; omega

/-- `BinaryImage::operation` (image_operations.rs:6-21): requires equal
dimensions (`assert_eq!`, embedded as `none` on mismatch), exports both
images to bytes, applies the byte combinator pairwise (bytes of `self`
beyond the zip keep their value), and re-packs.  Re-packing through
`BitVec::from_bytes` yields a bit sequence of length `8 * bytes`, which
we keep faithfully: the unpacked byte list is re-expanded to bits. -/
def from_bytes (bs : List Nat) : List Bool :=
  bs.flatMap (fun b => (List.range 8).map (fun k => b.testBit (7 - k)))

def operation (img other : BinaryImage) (operator : Nat → Nat → Nat) :
    Option BinaryImage :=
  if img.width = other.width ∧ img.height = other.height then
    let i := to_bytes img.pixels
    let u := to_bytes other.pixels
    let combined := List.zipWith operator i u ++ i.drop u.length
    some { pixels := from_bytes combined
           width := img.width
           height := img.height }
  else none

/-- `BinaryImage::diff` (image_operations.rs:34-36): XOR of the packed bytes. -/
def diff (img other : BinaryImage) : Option BinaryImage :=
  operation img other (fun x1 x2 => x1 ^^^ x2)

/-- `BinaryImage::union` (image_operations.rs:38-40): OR of the packed bytes. -/
def union (img other : BinaryImage) : Option BinaryImage :=
  operation img other (fun x1 x2 => x1 ||| x2)

/-- `BinaryImage::intersect` (image_operations.rs:42-44): AND of the packed bytes. -/
def intersect (img other : BinaryImage) : Option BinaryImage :=
  operation img other (fun x1 x2 => x1 &&& x2)

/-- `BinaryImage::popcount` (image_operations.rs:90-93): `u32::count_ones`. -/
def popcount : Nat → Nat
  | 0 => 0
  | n + 1 => (n + 1) % 2 + popcount ((n + 1) / 2)

/-- Sum of the population counts of consecutive 4-byte big-endian words,
as in the final loop of `diff_and_count` (image_operations.rs:82-87);
`u32::from_be_bytes [b0,b1,b2,b3] = ((b0·256+b1)·256+b2)·256+b3`. -/
def countWords : List Nat → Nat
  | b0 :: b1 :: b2 :: b3 :: rest =>
      popcount (((b0 * 256 + b1) * 256 + b2) * 256 + b3) + countWords rest
  | _ => 0

/-- Total population count of a byte sequence (specification view of
the word-wise loop of `diff_and_count`). -/
def sumPop (l : List Nat) : Nat :=
  (l.map popcount).sum

/-- `BinaryImage::diff_and_count` (image_operations.rs:73-88): asserts
equal dimensions, XORs the byte sequences, pads with zero bytes to a
multiple of four (the `while i.len() % 4 != 0` loop), and sums the
population counts of the 4-byte big-endian words. -/
def diff_and_count (img other : BinaryImage) : Option Nat :=
  if img.width = other.width ∧ img.height = other.height then
    let i := to_bytes img.pixels
    let u := to_bytes other.pixels
    let x := List.zipWith (fun x1 x2 => x1 ^^^ x2) i u ++ i.drop u.length
    let padded := x ++ List.replicate ((4 - x.length % 4) % 4) 0
    some (countWords padded)
  else none

/-- One cluster's contribution data, as consumed by `significance`.
Modelled from the spec (§2, §4.4, §6): the clustering, skeletonization
and boundary-extraction collaborators are external to this core, so a
cluster is abstracted to the four numbers `significance` reads from it:
`cluster.size()`, the truncated `skeleton.stat.mean as u64`,
`skeleton.stat.count`, and `boundary.len()`. -/
structure ClusterData where
  size : Nat
  mean : Nat
  count : Nat
  boundaryLen : Nat
deriving DecidableEq, Repr

/-- The accumulation loop of `significance` (image_operations.rs:57-69):
adds each cluster's scaled contribution, breaking once the running
`diff` reaches `threshold_u64`; a cluster with an empty boundary list
makes the `u64` division panic (`none`). -/
def sigLoop (threshold_u64 : Nat) : List ClusterData → Nat → Option Nat
  | [], diffAcc => some diffAcc
  | c :: rest, diffAcc =>
      if c.boundaryLen = 0 then none
      else
        let diffAcc' := diffAcc + 4 * 128 * 128 * c.size * c.mean * c.count / c.boundaryLen
        if threshold_u64 ≤ diffAcc' then some diffAcc'
        else sigLoop threshold_u64 rest diffAcc'

/-- `BinaryImage::significance` (image_operations.rs:50-71): accumulates
the per-cluster score with early exit at `threshold * area * width`,
then returns `(diff / (area * width)) as u32`.  The final division
panics (`none`) when `area * width = 0`; the cast to `u32` is the
explicit `% 2 ^ 32`. -/
def significance (clusters : List ClusterData) (width area threshold : Nat) :
    Option Nat :=
  let divisor := area * width
  match sigLoop (threshold * divisor) clusters 0 with
  | none => none
  | some diffAcc =>
      if divisor = 0 then none else some (diffAcc / divisor % 2 ^ 32)

/-- Sequentially set every listed position to true, as the write loops
of `dilate`, `fix_diagonal_cc` and `remove_disjoint_components` do. -/
def setAll (img : BinaryImage) (l : List (Nat × Nat)) : BinaryImage :=
  l.foldl (fun im p => im.set_pixel p.1 p.2 true) img

/-- The offsets `-2..=2` of `dilate`'s structuring element. -/
def dilateOffsets : List Int := [-2, -1, 0, 1, 2]

/-- The writes performed by `dilate` for one true source pixel
(image_operations.rs:127-140): the pixel itself, then every in-bounds
neighbor at offset `(i, j)` with `i, j ∈ -2..=2` (`i` added to `x`,
`j` added to `y`), in loop order. -/
def dilateWrites (img : BinaryImage) (x y : Nat) : List (Nat × Nat) :=
  (x, y) :: dilateOffsets.flatMap (fun i =>
    dilateOffsets.flatMap (fun j =>
      let nx : Int := (x : Int) + i
      let ny : Int := (y : Int) + j
      if 0 ≤ nx ∧ 0 ≤ ny ∧ nx < (img.width : Int) ∧ ny < (img.height : Int) then
        [(nx.toNat, ny.toNat)]
      else []))

/-- `BinaryImage::dilate` (image_operations.rs:122-146): scans the
image row-major and, for every true pixel, sets it and its in-bounds
5×5 neighborhood in a fresh canvas of the same size.  The nested
`for` loops are written as a fold over the row-major write list. -/
def dilate (img : BinaryImage) : BinaryImage :=
  setAll (new_w_h img.width img.height)
    ((List.range img.height).flatMap (fun y =>
      (List.range img.width).flatMap (fun x =>
        if img.get_pixel x y then dilateWrites img x y else [])))

/-- The scheduled additions of `fix_diagonal_cc`
(image_operations.rs:213-236): for every interior true pixel, each of
the four diagonal cases pushes the linear index of the orthogonal cell
to repair.  `for y in 1..h-1` iterates `y = 1, …, h-2`. -/
def fixDiagonalToAdd (img : BinaryImage) : List Nat :=
  (List.range' 1 (img.height - 1 - 1)).flatMap (fun y =>
    (List.range' 1 (img.width - 1 - 1)).flatMap (fun x =>
      if img.get_pixel x y then
        (if img.get_pixel (x - 1) (y - 1) && !img.get_pixel (x - 1) y
            && !img.get_pixel x (y - 1) then [(y - 1) * img.width + x] else [])
        ++ (if img.get_pixel (x + 1) (y - 1) && !img.get_pixel (x + 1) y
            && !img.get_pixel x (y - 1) then [(y - 1) * img.width + x] else [])
        ++ (if img.get_pixel (x - 1) (y + 1) && !img.get_pixel (x - 1) y
            && !img.get_pixel x (y + 1) then [(y + 1) * img.width + x] else [])
        ++ (if img.get_pixel (x + 1) (y + 1) && !img.get_pixel (x + 1) y
            && !img.get_pixel x (y + 1) then [(y + 1) * img.width + x] else [])
      else []))

/-- `BinaryImage::fix_diagonal_cc` (image_operations.rs:212-253):
collects the scheduled additions over the full scan, then applies
them to a clone of the input (`x = index % width`, `y = index / width`). -/
def fix_diagonal_cc (img : BinaryImage) : BinaryImage :=
  (fixDiagonalToAdd img).foldl
    (fun im idx => im.set_pixel (idx % img.width) (idx / img.width) true) img

/-- The 8-connected neighbor offsets `(dy, dx)` in the order of the
nested `for dy in -1..=1 { for dx in -1..=1 { … } }` loops with
`(0, 0)` skipped (image_operations.rs:168-183). -/
def neighborOffsets : List (Int × Int) :=
  [(-1, -1), (-1, 0), (-1, 1), (0, -1), (0, 1), (1, -1), (1, 0), (1, 1)]

/-- The `while let Some((cx, cy)) = stack.pop()` flood-fill loop of
`remove_disjoint_components` (image_operations.rs:159-184).  The
stack's head is its top; pushing the neighbors in loop order by
consing reproduces `Vec`'s LIFO pop order.  `fuel` dominates the
total number of stack pops, which is bounded by the pushes,
at most `1 + 8·width·height`. -/
def floodLoop (img : BinaryImage) :
    Nat → List Bool → List (Nat × Nat) → List (Nat × Nat) →
    List Bool × List (Nat × Nat)
  | 0, visited, _, comp => (visited, comp)
  | _ + 1, visited, [], comp => (visited, comp)
  | fuel + 1, visited, (cx, cy) :: rest, comp =>
      let idx := cy * img.width + cx
      if visited.getD idx false then
        floodLoop img fuel visited rest comp
      else
        let visited' := visited.set idx true
        let comp' := comp ++ [(cx, cy)]
        let stack' := neighborOffsets.foldl (fun st d =>
          let nx : Int := (cx : Int) + d.2
          let ny : Int := (cy : Int) + d.1
          if 0 ≤ nx && 0 ≤ ny && nx < (img.width : Int) && ny < (img.height : Int) then
            let nxn := nx.toNat
            let nyn := ny.toNat
            if img.get_pixel nxn nyn && !visited'.getD (nyn * img.width + nxn) false then
              (nxn, nyn) :: st
            else st
          else st) rest
        floodLoop img fuel visited' stack' comp'

/-- One step of the row-major component scan
(image_operations.rs:153-188): if the pixel is true and unvisited,
run the flood fill from it and append the discovered component. -/
def scanStep (img : BinaryImage) (st : List Bool × List (List (Nat × Nat)))
    (p : Nat × Nat) : List Bool × List (List (Nat × Nat)) :=
  if img.get_pixel p.1 p.2 && !st.1.getD (p.2 * img.width + p.1) false then
    let r := floodLoop img (8 * img.width * img.height + 2) st.1 [(p.1, p.2)] []
    (r.1, st.2 ++ [r.2])
  else st

/-- The component-discovery phase of `remove_disjoint_components`:
row-major scan over all pixels with a `width·height` visited array. -/
def findComponents (img : BinaryImage) : List (List (Nat × Nat)) :=
  (((List.range img.height).flatMap (fun y =>
      (List.range img.width).map (fun x => (x, y)))).foldl
    (scanStep img)
    (List.replicate (img.width * img.height) false, [])).2

/-- `Iterator::max_by_key` over the discovered components
(image_operations.rs:191-193): on ties the later element wins;
`.unwrap()` of an empty iterator panics (`none`). -/
def largestComponent (comps : List (List (Nat × Nat))) :
    Option (List (Nat × Nat)) :=
  comps.foldl (fun acc c =>
    match acc with
    | none => some c
    | some m => if m.length ≤ c.length then some c else some m) none

/-- The body of `remove_disjoint_components`
(image_operations.rs:148-210): find all 8-connected components,
keep the largest (`unwrap` panics when there is none), paint it on a
fresh canvas, repair diagonal connections, and recurse when more than
one component existed.  The recursion is fueled; the top-level entry
point supplies fuel `width·height + 1 ≥ 1`. -/
def removeAux : Nat → BinaryImage → Option BinaryImage
  | 0, _ => none
  | fuel + 1, img =>
      let comps := findComponents img
      match largestComponent comps with
      | none => none
      | some largest =>
          let image := setAll (new_w_h img.width img.height) largest
          let fixed := fix_diagonal_cc image
          if 1 < comps.length then removeAux fuel fixed else some fixed

/-- `BinaryImage::remove_disjoint_components` (image_operations.rs:148-210). -/
def remove_disjoint_components (img : BinaryImage) : Option BinaryImage :=
  removeAux (img.width * img.height + 1) img

end BinaryImage

/-! ## Geometry kernel (`src/path/util.rs`) -/

/-- `PointF64` with `f64` coordinates embedded as exact rationals. -/
structure PointF64 where
  x : ℚ
  y : ℚ
deriving DecidableEq, Repr

/-- `find_mid_point` (util.rs:44-48). -/
def find_mid_point (p1 p2 : PointF64) : PointF64 :=
  { x := (p1.x + p2.x) / 2, y := (p1.y + p2.y) / 2 }

/-- The `EPSILON` of `try_find_intersection` (util.rs:23). -/
def EPSILON : ℚ := 1 / 10000000

/-- `try_find_intersection` (util.rs:19-42): determinant formulation;
if `denom`, `numera` and `numerb` are all ≤ `1e-7` the lines are
treated as coincident and the midpoint of `p2` and `p3` is returned;
else if `denom ≤ 1e-7` there is no intersection; otherwise the
parametric point along `p1p2`. -/
def try_find_intersection (p1 p2 p3 p4 : PointF64) : Option PointF64 :=
  let denom := (p4.y - p3.y) * (p2.x - p1.x) - (p4.x - p3.x) * (p2.y - p1.y)
  let numera := (p4.x - p3.x) * (p1.y - p3.y) - (p4.y - p3.y) * (p1.x - p3.x)
  let numerb := (p2.x - p1.x) * (p1.y - p3.y) - (p2.y - p1.y) * (p1.x - p3.x)
  if denom ≤ EPSILON ∧ numera ≤ EPSILON ∧ numerb ≤ EPSILON then
    some (find_mid_point p2 p3)
  else if denom ≤ EPSILON then
    none
  else
    let mua := numera / denom
    some { x := p1.x + mua * (p2.x - p1.x), y := p1.y + mua * (p2.y - p1.y) }

/-- The degenerate policy exactly as the specification words it
(spec §4.5): first, if the denominator and both numerators of the
determinant formulation are all ≤ `1e-7`, the lines are coincident and
the midpoint of `p2` and `p3` is returned; else, if the denominator is
≤ `1e-7`, the lines are parallel and non-coincident and the fallible
variant returns no intersection; otherwise the standard parametric
intersection along `(p1, p2)`. -/
def intersectionSpecPolicy (p1 p2 p3 p4 : PointF64) : Option PointF64 :=
  let denom := (p4.y - p3.y) * (p2.x - p1.x) - (p4.x - p3.x) * (p2.y - p1.y)
  let numera := (p4.x - p3.x) * (p1.y - p3.y) - (p4.y - p3.y) * (p1.x - p3.x)
  let numerb := (p2.x - p1.x) * (p1.y - p3.y) - (p2.y - p1.y) * (p1.x - p3.x)
  if denom ≤ EPSILON ∧ numera ≤ EPSILON ∧ numerb ≤ EPSILON then
    some (find_mid_point p2 p3)
  else if denom ≤ EPSILON then
    none
  else
    some { x := p1.x + numera / denom * (p2.x - p1.x)
           y := p1.y + numera / denom * (p2.y - p1.y) }

/-! ## Concrete inputs used by the claims -/

namespace BinaryImage

/-- The 4×4 image whose only true pixels are `(0,0)` and `(3,3)`. -/
def exTwoDots : BinaryImage :=
  ((new_w_h 4 4).set_pixel 0 0 true).set_pixel 3 3 true

/-- 2×2 image with only `(0,0)` true (first Rust unit test of `image_diff`). -/
def exA2 : BinaryImage := (new_w_h 2 2).set_pixel 0 0 true

/-- 2×2 image with only `(1,1)` true (first Rust unit test of `image_diff`). -/
def exB2 : BinaryImage := (new_w_h 2 2).set_pixel 1 1 true

end BinaryImage

end VisionCortex

namespace VisionCortex

open BinaryImage

/-! ## Pixel access lemmas -/

lemma getD_set_true (l : List Bool) (i j : Nat) (h : l.getD j false = true) :
    (l.set i true).getD j false = true := by
  simp only [List.getD_eq_getElem?_getD] at h ⊢
  rw [List.getElem?_set]
  split
  · split
    · simp
    · next h1 h2 =>
        subst h1
        rw [List.getElem?_eq_none (by omega)] at h
        simp at h
  · exact h

lemma get_pixel_set_pixel_true (img : BinaryImage) (a b x y : Nat)
    (h : img.get_pixel x y = true) :
    (img.set_pixel a b true).get_pixel x y = true := by
  simp only [get_pixel, set_pixel] at h ⊢
  exact getD_set_true _ _ _ h

lemma width_set_pixel (img : BinaryImage) (a b : Nat) (v : Bool) :
    (img.set_pixel a b v).width = img.width := rfl

lemma height_set_pixel (img : BinaryImage) (a b : Nat) (v : Bool) :
    (img.set_pixel a b v).height = img.height := rfl

lemma wf_set_pixel (img : BinaryImage) (a b : Nat) (v : Bool) (h : img.wf) :
    (img.set_pixel a b v).wf := by
  simp only [wf, set_pixel] at h ⊢
  simpa using h

lemma wf_new_w_h (w h : Nat) : (new_w_h w h).wf := by
  unfold wf new_w_h
  simp

lemma get_pixel_new_w_h (w h x y : Nat) : (new_w_h w h).get_pixel x y = false := by
  unfold new_w_h get_pixel
  simp only [List.getD_eq_getElem?_getD, List.getElem?_replicate]
  split <;> simp

/-- Reading after a write: with the canonical storage invariant and
in-bounds coordinates, `set_pixel` changes exactly the written pixel. -/
lemma get_pixel_set_pixel (img : BinaryImage) (hwf : img.wf)
    {a b x y : Nat} (ha : a < img.width) (hb : b < img.height)
    (hx : x < img.width) (hy : y < img.height) (v : Bool) :
    (img.set_pixel a b v).get_pixel x y
      = if x = a ∧ y = b then v else img.get_pixel x y := by
  have hmod : ∀ u w : Nat, w < img.width → (u * img.width + w) % img.width = w := by
    intro u w hw
    rw [Nat.mul_comm, Nat.mul_add_mod, Nat.mod_eq_of_lt hw]
  have hdiv : ∀ u w : Nat, w < img.width → (u * img.width + w) / img.width = u := by
    intro u w hw
    rw [Nat.mul_comm, Nat.mul_add_div (by omega), Nat.div_eq_of_lt hw, Nat.add_zero]
  have hlt : b * img.width + a < img.pixels.length := by
    rw [hwf]
    calc b * img.width + a < (b + 1) * img.width := by
          rw [Nat.succ_mul]; omega
    _ ≤ img.height * img.width := Nat.mul_le_mul_right _ (by omega)
    _ = img.width * img.height := Nat.mul_comm _ _
  unfold get_pixel set_pixel
  simp only [List.getD_eq_getElem?_getD]
  rw [List.getElem?_set]
  by_cases heq : x = a ∧ y = b
  · obtain ⟨rfl, rfl⟩ := heq
    simp [hlt]
  · have hne : ¬(b * img.width + a = y * img.width + x) := by
      intro hcontra
      apply heq
      constructor
      · have := hmod b a ha
        rw [hcontra, hmod y x hx] at this
        omega
      · have := hdiv b a ha
        rw [hcontra, hdiv y x hx] at this
        omega
    rw [if_neg hne, if_neg heq]

/-! ## setAll lemmas -/

lemma setAll_width (img : BinaryImage) (L : List (Nat × Nat)) :
    (setAll img L).width = img.width := by
  induction L generalizing img with
  | nil => rfl
  | cons p t ih => exact ih (img.set_pixel p.1 p.2 true)

lemma setAll_height (img : BinaryImage) (L : List (Nat × Nat)) :
    (setAll img L).height = img.height := by
  induction L generalizing img with
  | nil => rfl
  | cons p t ih => exact ih (img.set_pixel p.1 p.2 true)

/-- Painting a list of in-bounds positions true: a pixel of the result
is true iff it was true before or is among the painted positions. -/
lemma get_pixel_setAll (img : BinaryImage) (L : List (Nat × Nat)) (hwf : img.wf)
    (hL : ∀ p ∈ L, p.1 < img.width ∧ p.2 < img.height)
    {x y : Nat} (hx : x < img.width) (hy : y < img.height) :
    (setAll img L).get_pixel x y
      = (img.get_pixel x y || decide ((x, y) ∈ L)) := by
  induction L generalizing img with
  | nil => simp [setAll]
  | cons p t ih =>
      have hstep : setAll img (p :: t) = setAll (img.set_pixel p.1 p.2 true) t := rfl
      rw [hstep]
      have hp := hL p (List.mem_cons_self p t)
      have hrec := ih (img.set_pixel p.1 p.2 true)
        (wf_set_pixel img p.1 p.2 true hwf)
        (fun q hq => hL q (List.mem_cons_of_mem p hq)) hx hy
      rw [hrec, get_pixel_set_pixel img hwf hp.1 hp.2 hx hy true]
      by_cases hxy : x = p.1 ∧ y = p.2
      · obtain ⟨rfl, rfl⟩ := hxy
        simp [List.mem_cons]
      · rw [if_neg hxy]
        have : ¬((x, y) = p) := by
          intro hc
          exact hxy ⟨congrArg Prod.fst hc, congrArg Prod.snd hc⟩
        simp [List.mem_cons, this]

/-- Membership in the write list of one true source pixel of `dilate`
coincides, for in-bounds targets, with Chebyshev distance ≤ 2. -/
lemma mem_dilateWrites (img : BinaryImage) {a b u v : Nat}
    (ha : a < img.width) (hb : b < img.height) :
    ((a, b) ∈ dilateWrites img u v
      ↔ |(a : Int) - u| ≤ 2 ∧ |(b : Int) - v| ≤ 2) := by
  unfold dilateWrites
  simp only [List.mem_cons, List.mem_flatMap]
  constructor
  · rintro (heq | ⟨i, hi, j, hj, hmem⟩)
    · have h1 : a = u := congrArg Prod.fst heq
      have h2 : b = v := congrArg Prod.snd heq
      subst h1; subst h2
      simp
    · split at hmem
      · next hguard =>
          simp only [List.mem_singleton, Prod.mk.injEq] at hmem
          obtain ⟨ha', hb'⟩ := hmem
          obtain ⟨hnx0, hny0, hnxw, hnyh⟩ := hguard
          have hia : (a : Int) = (u : Int) + i := by
            rw [ha', Int.toNat_of_nonneg hnx0]
          have hjb : (b : Int) = (v : Int) + j := by
            rw [hb', Int.toNat_of_nonneg hny0]
          have hi' : -2 ≤ i ∧ i ≤ 2 := by
            simp only [dilateOffsets, List.mem_cons, List.mem_singleton] at hi
            rcases hi with rfl | rfl | rfl | rfl | rfl | h0
            · omega
            · omega
            · omega
            · omega
            · omega
            · simp at h0
          have hj' : -2 ≤ j ∧ j ≤ 2 := by
            simp only [dilateOffsets, List.mem_cons, List.mem_singleton] at hj
            rcases hj with rfl | rfl | rfl | rfl | rfl | h0
            · omega
            · omega
            · omega
            · omega
            · omega
            · simp at h0
          rw [abs_le, abs_le]
          omega
      · simp at hmem
  · rintro ⟨hab1, hab2⟩
    rw [abs_le] at hab1 hab2
    refine Or.inr ⟨(a : Int) - u, ?_, (b : Int) - v, ?_, ?_⟩
    · have : (a : Int) - u = -2 ∨ (a : Int) - u = -1 ∨ (a : Int) - u = 0 ∨
          (a : Int) - u = 1 ∨ (a : Int) - u = 2 := by omega
      rcases this with h | h | h | h | h <;> rw [h] <;> simp [dilateOffsets]
    · have : (b : Int) - v = -2 ∨ (b : Int) - v = -1 ∨ (b : Int) - v = 0 ∨
          (b : Int) - v = 1 ∨ (b : Int) - v = 2 := by omega
      rcases this with h | h | h | h | h <;> rw [h] <;> simp [dilateOffsets]
    · have hnx : (u : Int) + ((a : Int) - u) = (a : Int) := by ring
      have hny : (v : Int) + ((b : Int) - v) = (b : Int) := by ring
      simp only [hnx, hny]
      rw [if_pos]
      · simp
      · refine ⟨by omega, by omega, ?_, ?_⟩
        · exact_mod_cast ha
        · exact_mod_cast hb

/-! ## Byte export lemmas -/

lemma to_bytes_length (l : List Bool) : (to_bytes l).length = (l.length + 7) / 8 := by
  suffices H : ∀ n (l : List Bool), l.length ≤ n →
      (to_bytes l).length = (l.length + 7) / 8 from H l.length l le_rfl
  intro n
  induction n with
  | zero =>
      intro l hl
      have : l = [] := List.eq_nil_of_length_eq_zero (by omega)
      subst this
      rw [to_bytes]
      simp
  | succ n ih =>
      intro l hl
      rw [to_bytes]
      split
      · next heq => subst heq; simp
      · next hne =>
          have hlen : l.length ≠ 0 := fun h0 => hne (List.eq_nil_of_length_eq_zero h0)
          rw [List.length_cons, ih (l.drop 8) (by simp; omega)]
          simp only [List.length_drop]
          omega

/-! ## Population count lemmas -/

lemma popcount_pos_eq (n : Nat) (h : n ≠ 0) :
    popcount n = n % 2 + popcount (n / 2) := by
  cases n with
  | zero => exact absurd rfl h
  | succ m => rw [popcount]

lemma popcount_two_mul_add (n : Nat) (b : Bool) :
    popcount (2 * n + b.toNat) = popcount n + b.toNat := by
  by_cases h0 : 2 * n + b.toNat = 0
  · have hn : n = 0 := by cases b <;> simp_all
    have hb : b.toNat = 0 := by omega
    rw [hn, hb]
    simp
  · rw [popcount_pos_eq _ h0, Nat.mul_add_mod, Nat.mul_add_div (by omega),
      Nat.mod_eq_of_lt (by cases b <;> simp),
      Nat.div_eq_of_lt (by cases b <;> simp), Nat.add_zero]
    omega

lemma popcount_mul_pow_add (x : Nat) :
    ∀ (k y : Nat), y < 2 ^ k → popcount (x * 2 ^ k + y) = popcount x + popcount y := by
  intro k
  induction k with
  | zero =>
      intro y hy
      interval_cases y
      simp [popcount]
  | succ k ih =>
      intro y hy
      have h1 : x * 2 ^ (k + 1) = 2 * (x * 2 ^ k) := by
        rw [Nat.pow_succ]
        ring
      have hsplit : x * 2 ^ (k + 1) + y = 2 * (x * 2 ^ k + y / 2) + y % 2 := by
        rw [h1]
        omega
      have hy2 : y / 2 < 2 ^ k := by
        rw [Nat.pow_succ] at hy
        omega
      have hbit : y % 2 = (decide (y % 2 = 1)).toNat := by
        rcases Nat.mod_two_eq_zero_or_one y with h | h <;> simp [h]
      rw [hsplit, hbit, popcount_two_mul_add, ih _ hy2]
      by_cases hym : y = 0
      · subst hym; simp
      · have : popcount y = popcount (y / 2) + (decide (y % 2 = 1)).toNat := by
          rw [popcount_pos_eq y hym]
          omega
        omega

lemma popcount_mul_256_add (x y : Nat) (hy : y < 256) :
    popcount (x * 256 + y) = popcount x + popcount y := by
  have h := popcount_mul_pow_add x 8 y (by omega)
  norm_num at h
  exact h

/-! ## bits2byte lemmas -/

lemma bits2byte_concat (l : List Bool) (b : Bool) :
    bits2byte (l ++ [b]) = 2 * bits2byte l + b.toNat := by
  simp [bits2byte, List.foldl_append]

lemma bits2byte_lt (l : List Bool) : bits2byte l < 2 ^ l.length := by
  induction l using List.reverseRecOn with
  | nil => simp [bits2byte]
  | append_singleton l b ih =>
      rw [bits2byte_concat]
      simp only [List.length_append, List.length_singleton, Nat.pow_succ]
      have : b.toNat ≤ 1 := by cases b <;> simp
      omega

lemma popcount_bits2byte (l : List Bool) :
    popcount (bits2byte l) = l.count true := by
  induction l using List.reverseRecOn with
  | nil => simp [bits2byte, popcount]
  | append_singleton l b ih =>
      rw [bits2byte_concat, popcount_two_mul_add, ih, List.count_append]
      cases b <;> simp

lemma bits2byte_xor (u : List Bool) :
    ∀ w : List Bool, u.length = w.length →
      bits2byte u ^^^ bits2byte w = bits2byte (List.zipWith bne u w) := by
  induction u using List.reverseRecOn with
  | nil =>
      intro w hw
      have : w = [] := List.eq_nil_of_length_eq_zero hw.symm
      subst this
      rfl
  | append_singleton u b ih =>
      intro w hw
      rcases List.eq_nil_or_concat w with rfl | ⟨w', c, rfl⟩
      · simp at hw
      · rw [List.concat_eq_append] at hw ⊢
        have hlen : u.length = w'.length := by
          simp only [List.length_append, List.length_singleton] at hw
          omega
        rw [bits2byte_concat, bits2byte_concat, ← Nat.bit_val, ← Nat.bit_val,
          Nat.xor_bit, Nat.bit_val, ih w' hlen,
          List.zipWith_append _ _ _ _ _ hlen,
          show List.zipWith bne [b] [c] = [b != c] from rfl,
          bits2byte_concat]

/-! ## to_bytes lemmas -/

lemma to_bytes_nil : to_bytes [] = [] := by
  rw [to_bytes]
  simp

lemma to_bytes_cons_eq (l : List Bool) (h : l ≠ []) :
    to_bytes l
      = bits2byte (l.take 8 ++ List.replicate (8 - (l.take 8).length) false)
        :: to_bytes (l.drop 8) := by
  rw [to_bytes, dif_neg h]

lemma chunk_length (l : List Bool) :
    (l.take 8 ++ List.replicate (8 - (l.take 8).length) false).length = 8 := by
  simp only [List.length_append, List.length_replicate, List.length_take]
  omega

lemma to_bytes_lt (l : List Bool) : ∀ b ∈ to_bytes l, b < 256 := by
  suffices H : ∀ n (l : List Bool), l.length ≤ n → ∀ b ∈ to_bytes l, b < 256
    from H l.length l le_rfl
  intro n
  induction n with
  | zero =>
      intro l hl
      have : l = [] := List.eq_nil_of_length_eq_zero (by omega)
      subst this
      rw [to_bytes_nil]
      intro b hb
      exact absurd hb (List.not_mem_nil b)
  | succ n ih =>
      intro l hl b hb
      by_cases hnil : l = []
      · subst hnil
        rw [to_bytes_nil] at hb
        exact absurd hb (List.not_mem_nil b)
      · rw [to_bytes_cons_eq l hnil] at hb
        rcases List.mem_cons.mp hb with rfl | htail
        · have h1 := bits2byte_lt
            (l.take 8 ++ List.replicate (8 - (l.take 8).length) false)
          rw [chunk_length] at h1
          omega
        · refine ih (l.drop 8) ?_ b htail
          have : l.length ≠ 0 := fun h0 => hnil (List.eq_nil_of_length_eq_zero h0)
          simp only [List.length_drop]
          omega

lemma count_true_chunk (l : List Bool) :
    (l.take 8 ++ List.replicate (8 - (l.take 8).length) false).count true
      = (l.take 8).count true := by
  rw [List.count_append, List.count_replicate]
  simp

lemma sumPop_to_bytes (l : List Bool) : sumPop (to_bytes l) = l.count true := by
  suffices H : ∀ n (l : List Bool), l.length ≤ n →
      sumPop (to_bytes l) = l.count true from H l.length l le_rfl
  intro n
  induction n with
  | zero =>
      intro l hl
      have : l = [] := List.eq_nil_of_length_eq_zero (by omega)
      subst this
      rw [to_bytes_nil]
      simp [sumPop]
  | succ n ih =>
      intro l hl
      by_cases hnil : l = []
      · subst hnil
        rw [to_bytes_nil]
        simp [sumPop]
      · rw [to_bytes_cons_eq l hnil]
        have hlen0 : l.length ≠ 0 := fun h0 => hnil (List.eq_nil_of_length_eq_zero h0)
        have hrec := ih (l.drop 8) (by simp only [List.length_drop]; omega)
        simp only [sumPop, List.map_cons, List.sum_cons] at hrec ⊢
        rw [hrec, popcount_bits2byte, count_true_chunk, ← List.count_append,
          List.take_append_drop]

lemma zipWith_bne_replicate_false (k : Nat) :
    List.zipWith bne (List.replicate k false) (List.replicate k false)
      = List.replicate k false := by
  induction k with
  | zero => rfl
  | succ k ih => simp only [List.replicate_succ, List.zipWith_cons_cons, ih]; rfl

lemma to_bytes_zipWith_xor :
    ∀ (p q : List Bool), p.length = q.length →
      List.zipWith (fun x1 x2 => x1 ^^^ x2) (to_bytes p) (to_bytes q)
        = to_bytes (List.zipWith bne p q) := by
  suffices H : ∀ n (p q : List Bool), p.length ≤ n → p.length = q.length →
      List.zipWith (fun x1 x2 => x1 ^^^ x2) (to_bytes p) (to_bytes q)
        = to_bytes (List.zipWith bne p q) from fun p q h => H p.length p q le_rfl h
  intro n
  induction n with
  | zero =>
      intro p q hp hpq
      have h1 : p = [] := List.eq_nil_of_length_eq_zero (by omega)
      have h2 : q = [] := List.eq_nil_of_length_eq_zero (by omega)
      subst h1; subst h2
      simp [to_bytes_nil]
  | succ n ih =>
      intro p q hp hpq
      by_cases hnil : p = []
      · have h2 : q = [] := List.eq_nil_of_length_eq_zero (by rw [← hpq, hnil]; rfl)
        subst hnil; subst h2
        simp [to_bytes_nil]
      · have hqnil : q ≠ [] := by
          intro h0
          apply hnil
          apply List.eq_nil_of_length_eq_zero
          rw [hpq, h0]
          rfl
        have hznil : List.zipWith bne p q ≠ [] := by
          intro h0
          apply hnil
          apply List.eq_nil_of_length_eq_zero
          have := congrArg List.length h0
          simp only [List.length_zipWith, List.length_nil, ← hpq,
            Nat.min_self] at this
          exact this
        rw [to_bytes_cons_eq p hnil, to_bytes_cons_eq q hqnil,
          to_bytes_cons_eq _ hznil, List.zipWith_cons_cons]
        have htk : (p.take 8).length = (q.take 8).length := by
          simp only [List.length_take, hpq]
        have hpad : (8 : Nat) - (p.take 8).length = 8 - (q.take 8).length := by
          rw [htk]
        have hzt : (List.zipWith bne p q).take 8
            = List.zipWith bne (p.take 8) (q.take 8) := List.take_zipWith
        have hzd : (List.zipWith bne p q).drop 8
            = List.zipWith bne (p.drop 8) (q.drop 8) := List.drop_zipWith
        have hztlen : ((List.zipWith bne p q).take 8).length = (p.take 8).length := by
          simp only [List.length_take, List.length_zipWith, ← hpq, Nat.min_self]
        congr 1
        · rw [bits2byte_xor _ _ (by rw [chunk_length, chunk_length])]
          congr 1
          rw [List.zipWith_append _ _ _ _ _ htk, ← hpad,
            zipWith_bne_replicate_false, hzt]
          rw [show (List.zipWith bne (List.take 8 p) (List.take 8 q)).length
              = (List.take 8 p).length by
            simp only [List.length_zipWith, htk, Nat.min_self]]
        · have hd1 : (p.drop 8).length ≤ n := by
            have : p.length ≠ 0 := fun h0 => hnil (List.eq_nil_of_length_eq_zero h0)
            simp only [List.length_drop]
            omega
          have hd2 : (p.drop 8).length = (q.drop 8).length := by
            simp only [List.length_drop, hpq]
          rw [hzd]
          exact ih (p.drop 8) (q.drop 8) hd1 hd2

lemma sumPop_append_zeros (x : List Nat) (k : Nat) :
    sumPop (x ++ List.replicate k 0) = sumPop x := by
  simp only [sumPop, List.map_append, List.sum_append, List.map_replicate]
  have h0 : popcount 0 = 0 := by rw [popcount]
  rw [h0]
  simp

lemma countWords_eq_sumPop :
    ∀ (l : List Nat), l.length % 4 = 0 → (∀ b ∈ l, b < 256) →
      countWords l = sumPop l := by
  suffices H : ∀ n (l : List Nat), l.length ≤ n → l.length % 4 = 0 →
      (∀ b ∈ l, b < 256) → countWords l = sumPop l
    from fun l h4 hb => H l.length l le_rfl h4 hb
  intro n
  induction n with
  | zero =>
      intro l hl _ _
      have : l = [] := List.eq_nil_of_length_eq_zero (by omega)
      subst this
      simp [countWords, sumPop]
  | succ n ih =>
      intro l hl h4 hb
      match l with
      | [] => simp [countWords, sumPop]
      | [b0] => simp at h4
      | [b0, b1] => simp at h4
      | [b0, b1, b2] => simp at h4
      | b0 :: b1 :: b2 :: b3 :: rest =>
          have hb0 := hb b0 (by simp)
          have hb1 := hb b1 (by simp)
          have hb2 := hb b2 (by simp)
          have hb3 := hb b3 (by simp)
          have hword : popcount (((b0 * 256 + b1) * 256 + b2) * 256 + b3)
              = popcount b0 + popcount b1 + popcount b2 + popcount b3 := by
            rw [popcount_mul_256_add _ _ hb3, popcount_mul_256_add _ _ hb2,
              popcount_mul_256_add _ _ hb1]
          have hrest : countWords rest = sumPop rest := by
            refine ih rest ?_ ?_ ?_
            · simp only [List.length_cons] at hl
              omega
            · simp only [List.length_cons] at h4 ⊢
              omega
            · intro b hbm
              exact hb b (by simp [hbm])
          simp only [countWords, sumPop, List.map_cons, List.sum_cons]
          simp only [sumPop] at hrest
          rw [hword, hrest]
          omega

lemma count_true_zipWith_bne :
    ∀ (p q : List Bool), p.length = q.length →
      (List.zipWith bne p q).count true
        = (List.range p.length).countP
            (fun i => p.getD i false != q.getD i false) := by
  intro p
  induction p with
  | nil =>
      intro q h
      have : q = [] := List.eq_nil_of_length_eq_zero h.symm
      subst this
      rfl
  | cons a p' ih =>
      intro q h
      match q with
      | [] => simp at h
      | b :: q' =>
          have hlen : p'.length = q'.length := by
            simp only [List.length_cons] at h
            omega
          simp only [List.zipWith_cons_cons, List.count_cons, List.length_cons,
            List.range_succ_eq_map, List.countP_cons, List.countP_map]
          have hc : List.countP
                ((fun i => (a :: p').getD i false != (b :: q').getD i false)
                  ∘ Nat.succ) (List.range p'.length)
              = List.countP (fun i => p'.getD i false != q'.getD i false)
                  (List.range p'.length) := by
            refine List.countP_congr ?_
            intro i _
            simp [Function.comp]
          rw [ih q' hlen, hc, List.getD_cons_zero, List.getD_cons_zero]
          rcases Bool.eq_false_or_eq_true (a != b) with hab | hab <;>
            rw [hab] <;> simp

/-! ## Claim theorems -/

/-- C1, counterexample: on the 4×4 image with isolated true pixels at
`(0,0)` and `(3,3)`, `remove_disjoint_components` does *not* keep
`(0,0)`: the returned image has `(0,0)` false, because `max_by_key`
returns the *last* of several equally-large components. -/
theorem remove_disjoint_components_two_dots_drops_origin :
    (remove_disjoint_components exTwoDots).map (fun r => r.get_pixel 0 0)
      = some false := by
  decide

/-- C1, amended: on that image `remove_disjoint_components` returns the
image containing exactly the pixel `(3,3)` and nothing else — when
several components tie for the largest pixel count, the component
*last* encountered in the row-major scan is kept (`max_by_key` returns
the last maximum). -/
theorem remove_disjoint_components_two_dots_keeps_last :
    (remove_disjoint_components exTwoDots).map
      (fun r => (List.range 4).map (fun y =>
        (List.range 4).map (fun x => r.get_pixel x y)))
      = some [[false, false, false, false], [false, false, false, false],
              [false, false, false, false], [false, false, false, true]] := by
  decide

/-- C2: the returned significance score is *not* bounded by the
threshold, contrary to the function's own doc comment ("maximum return
value is equal to threshold"): the early-exit test runs only after a
cluster's full contribution is added, so a single cluster of size 1,
skeleton mean 1, skeleton count 1 and boundary length 1 scores
`4·128·128 = 65536` against `area = 1`, `width = 1`,
`threshold = 1`. -/
theorem significance_exceeds_threshold :
    significance [⟨1, 1, 1, 1⟩] 1 1 1 = some 65536 ∧ ¬(65536 ≤ 1) := by
  refine ⟨by decide, by decide⟩

/-- C3, counterexample: on the parallel segments `p1=(0,0)`, `p2=(1,0)`,
`p3=(0,1)`, `p4=(1,1)` `try_find_intersection` does *not* return
"no intersection": `denom = 0`, `numera = numerb = -1` are all
`≤ 1e-7`, so the coincident-lines branch fires first. -/
theorem try_find_intersection_parallel_not_none :
    try_find_intersection ⟨0, 0⟩ ⟨1, 0⟩ ⟨0, 1⟩ ⟨1, 1⟩ ≠ none := by
  simp only [try_find_intersection, find_mid_point, EPSILON]
  norm_num
  simp

/-- C3, amended: on those parallel segments `try_find_intersection`
returns the midpoint of `p2` and `p3`, the point `(1/2, 1/2)`, because
the comparison `denom ≤ EPSILON ∧ numera ≤ EPSILON ∧ numerb ≤ EPSILON`
also accepts the strictly negative numerators `-1`. -/
theorem try_find_intersection_parallel_returns_midpoint :
    try_find_intersection ⟨0, 0⟩ ⟨1, 0⟩ ⟨0, 1⟩ ⟨1, 1⟩
      = some ⟨1/2, 1/2⟩ := by
  simp only [try_find_intersection, find_mid_point, EPSILON]
  norm_num

/-- C4: for all input points, `try_find_intersection` implements
exactly the ordered degenerate policy of the specification: if the
denominator and both numerators of the determinant formulation are all
`≤ 1e-7`, the midpoint of `p2` and `p3`; otherwise, if the denominator
is `≤ 1e-7`, no intersection; otherwise the parametric point
`p1 + (numera/denom)·(p2-p1)`. -/
theorem try_find_intersection_follows_spec_policy
    (p1 p2 p3 p4 : PointF64) :
    try_find_intersection p1 p2 p3 p4 = intersectionSpecPolicy p1 p2 p3 p4 := by
  rfl

/-- C5: for equal-size images in canonical storage form (so the
trailing pad bits exist only in the byte export and are false),
`diff_and_count` returns exactly the number of pixel positions at
which the images differ — position `i` of the row-major order being
pixel `(i % width, i / width)` — which also equals the total
population count of the bitwise XOR of the two packed byte
sequences; the zero bytes appended to reach a multiple of 4 bytes
contribute nothing. -/
theorem diff_and_count_counts_differing_pixels (A B : BinaryImage)
    (hA : A.wf) (hB : B.wf) (hw : A.width = B.width) (hh : A.height = B.height) :
    A.diff_and_count B
      = some ((List.range (A.width * A.height)).countP
          (fun i => A.get_pixel (i % A.width) (i / A.width)
            != B.get_pixel (i % A.width) (i / A.width)))
    ∧ A.diff_and_count B
      = some (sumPop (List.zipWith (fun x1 x2 => x1 ^^^ x2)
          (to_bytes A.pixels) (to_bytes B.pixels))) := by
  have hplen : A.pixels.length = B.pixels.length := by rw [hA, hB, hw, hh]
  have htb : (to_bytes B.pixels).length = (to_bytes A.pixels).length := by
    rw [to_bytes_length, to_bytes_length, hplen]
  have hzip : List.zipWith (fun x1 x2 => x1 ^^^ x2)
      (to_bytes A.pixels) (to_bytes B.pixels)
      = to_bytes (List.zipWith bne A.pixels B.pixels) :=
    to_bytes_zipWith_xor _ _ hplen
  have hxeq : List.zipWith (fun x1 x2 => x1 ^^^ x2)
      (to_bytes A.pixels) (to_bytes B.pixels)
      ++ (to_bytes A.pixels).drop (to_bytes B.pixels).length
      = to_bytes (List.zipWith bne A.pixels B.pixels) := by
    rw [htb, List.drop_length, List.append_nil, hzip]
  have hcw : ∀ tb : List Nat, (∀ b ∈ tb, b < 256) →
      countWords (tb ++ List.replicate ((4 - tb.length % 4) % 4) 0)
        = sumPop tb := by
    intro tb hbnd
    rw [countWords_eq_sumPop, sumPop_append_zeros]
    · simp only [List.length_append, List.length_replicate]
      omega
    · intro b hb
      rcases List.mem_append.mp hb with h1 | h1
      · exact hbnd b h1
      · rw [List.eq_of_mem_replicate h1]
        omega
  have hmain : A.diff_and_count B
      = some ((List.zipWith bne A.pixels B.pixels).count true) := by
    unfold diff_and_count
    rw [if_pos ⟨hw, hh⟩]
    dsimp only
    rw [hxeq, hcw _ (to_bytes_lt _), sumPop_to_bytes]
  have hcount : (List.zipWith bne A.pixels B.pixels).count true
      = (List.range (A.width * A.height)).countP
          (fun i => A.get_pixel (i % A.width) (i / A.width)
            != B.get_pixel (i % A.width) (i / A.width)) := by
    rw [count_true_zipWith_bne _ _ hplen, hA]
    refine List.countP_congr ?_
    intro i hi
    have hidx : i / A.width * A.width + i % A.width = i := by
      rw [Nat.mul_comm]
      exact Nat.div_add_mod i A.width
    unfold get_pixel
    rw [← hw, hidx]
  refine ⟨by rw [hmain, hcount], by rw [hmain, hzip, sumPop_to_bytes]⟩

/-- C5, witness: the first Rust unit test pair — 2×2 images with
`(0,0)` true in one and `(1,1)` true in the other — differ at exactly
2 positions. -/
theorem diff_and_count_counts_differing_pixels_witness :
    (exA2.wf ∧ exB2.wf ∧ exA2.width = exB2.width ∧ exA2.height = exB2.height) ∧
    (exA2.diff_and_count exB2
      = some ((List.range (exA2.width * exA2.height)).countP
          (fun i => exA2.get_pixel (i % exA2.width) (i / exA2.width)
            != exB2.get_pixel (i % exA2.width) (i / exA2.width)))
     ∧ exA2.diff_and_count exB2
      = some (sumPop (List.zipWith (fun x1 x2 => x1 ^^^ x2)
          (to_bytes exA2.pixels) (to_bytes exB2.pixels)))) :=
  ⟨⟨by decide, by decide, rfl, rfl⟩,
    diff_and_count_counts_differing_pixels exA2 exB2 (by decide) (by decide) rfl rfl⟩

/-- C6: for every binary image with width ≥ 2 and height ≥ 2, every
pixel true in the input is still true after `fix_diagonal_cc`: the
routine only clones the input and sets additional pixels to true. -/
theorem fix_diagonal_cc_superset (img : BinaryImage)
    (hw : 2 ≤ img.width) (hh : 2 ≤ img.height) (x y : Nat)
    (h : img.get_pixel x y = true) :
    (fix_diagonal_cc img).get_pixel x y = true := by
  unfold fix_diagonal_cc
  have : ∀ (L : List Nat) (im : BinaryImage), im.get_pixel x y = true →
      (L.foldl (fun im idx =>
        im.set_pixel (idx % img.width) (idx / img.width) true) im).get_pixel x y
        = true := by
    intro L
    induction L with
    | nil => intro im him; exact him
    | cons i t ih =>
        intro im him
        rw [List.foldl_cons]
        exact ih _ (get_pixel_set_pixel_true im _ _ x y him)
  exact this _ img h

/-- C6, witness: the 3×3 image with only `(1,1)` true satisfies all
hypotheses and keeps `(1,1)` true after `fix_diagonal_cc`. -/
theorem fix_diagonal_cc_superset_witness :
    (2 ≤ ((new_w_h 3 3).set_pixel 1 1 true).width ∧
     2 ≤ ((new_w_h 3 3).set_pixel 1 1 true).height ∧
     ((new_w_h 3 3).set_pixel 1 1 true).get_pixel 1 1 = true) ∧
    (fix_diagonal_cc ((new_w_h 3 3).set_pixel 1 1 true)).get_pixel 1 1 = true :=
  ⟨⟨by decide, by decide, by decide⟩,
    fix_diagonal_cc_superset _ (by decide) (by decide) 1 1 (by decide)⟩

/-- C7: `dilate` returns an image of the same width and height in
which an in-bounds pixel `(x, y)` is true iff some input pixel within
Chebyshev distance 2 of `(x, y)` (the in-bounds 5×5 square centered at
`(x, y)`) is true. -/
theorem dilate_characterization (img : BinaryImage) :
    (dilate img).width = img.width ∧ (dilate img).height = img.height ∧
    ∀ x y, x < img.width → y < img.height →
      ((dilate img).get_pixel x y = true ↔
        ∃ u v, u < img.width ∧ v < img.height ∧ img.get_pixel u v = true ∧
          |(x : Int) - u| ≤ 2 ∧ |(y : Int) - v| ≤ 2) := by
  refine ⟨setAll_width _ _, setAll_height _ _, ?_⟩
  intro x y hx hy
  set L := (List.range img.height).flatMap (fun v =>
      (List.range img.width).flatMap (fun u =>
        if img.get_pixel u v then dilateWrites img u v else [])) with hLdef
  have hbounds : ∀ p ∈ L, p.1 < img.width ∧ p.2 < img.height := by
    intro p hp
    simp only [hLdef, List.mem_flatMap, List.mem_range] at hp
    obtain ⟨v, hv, u, hu, hpmem⟩ := hp
    split at hpmem
    · rcases List.mem_cons.mp hpmem with heq | hmem
      · rw [heq]
        exact ⟨hu, hv⟩
      · simp only [List.mem_flatMap] at hmem
        obtain ⟨i, hi, j, hj, hmem2⟩ := hmem
        split at hmem2
        · next hg =>
            obtain ⟨h0x, h0y, hxw, hyh⟩ := hg
            simp only [List.mem_singleton] at hmem2
            subst hmem2
            constructor
            · simp only
              omega
            · simp only
              omega
        · exact absurd hmem2 (List.not_mem_nil _)
    · exact absurd hpmem (List.not_mem_nil _)
  have hchar := get_pixel_setAll (new_w_h img.width img.height) L
    (wf_new_w_h img.width img.height) hbounds hx hy
  rw [show dilate img = setAll (new_w_h img.width img.height) L from rfl,
    hchar, get_pixel_new_w_h]
  simp only [Bool.false_or, decide_eq_true_eq]
  constructor
  · intro hmem
    simp only [hLdef, List.mem_flatMap, List.mem_range] at hmem
    obtain ⟨v, hv, u, hu, hpm⟩ := hmem
    split at hpm
    · next htrue =>
        have hcheb := (mem_dilateWrites img hx hy).mp hpm
        exact ⟨u, v, hu, hv, htrue, hcheb.1, hcheb.2⟩
    · exact absurd hpm (List.not_mem_nil _)
  · rintro ⟨u, v, hu, hv, htrue, h1, h2⟩
    simp only [hLdef, List.mem_flatMap, List.mem_range]
    refine ⟨v, hv, u, hu, ?_⟩
    rw [if_pos htrue]
    exact (mem_dilateWrites img hx hy).mpr ⟨h1, h2⟩

/-- C7, witness: on the 5×5 image with only `(0, 0)` true, the
characterization applies at the in-bounds pixel `(2, 2)`. -/
theorem dilate_characterization_witness :
    (2 < ((new_w_h 5 5).set_pixel 0 0 true).width ∧
     2 < ((new_w_h 5 5).set_pixel 0 0 true).height) ∧
    ((dilate ((new_w_h 5 5).set_pixel 0 0 true)).get_pixel 2 2 = true ↔
      ∃ u v, u < ((new_w_h 5 5).set_pixel 0 0 true).width ∧
        v < ((new_w_h 5 5).set_pixel 0 0 true).height ∧
        ((new_w_h 5 5).set_pixel 0 0 true).get_pixel u v = true ∧
        |(2 : Int) - u| ≤ 2 ∧ |(2 : Int) - v| ≤ 2) :=
  ⟨⟨by decide, by decide⟩,
    (dilate_characterization ((new_w_h 5 5).set_pixel 0 0 true)).2.2 2 2
      (by decide) (by decide)⟩

/-- C8: the XOR-based `diff` is commutative on images of equal
dimensions (with the canonical storage invariant, so that the two
byte sequences have equal length). -/
theorem diff_commutative (A B : BinaryImage) (hA : A.wf) (hB : B.wf)
    (hw : A.width = B.width) (hh : A.height = B.height) :
    A.diff B = B.diff A := by
  unfold diff operation
  rw [if_pos ⟨hw, hh⟩, if_pos ⟨hw.symm, hh.symm⟩]
  have hlen : (to_bytes A.pixels).length = (to_bytes B.pixels).length := by
    rw [to_bytes_length, to_bytes_length, hA, hB, hw, hh]
  simp only [Option.some.injEq, BinaryImage.mk.injEq]
  refine ⟨hw, hh, ?_⟩
  have hd1 : (to_bytes A.pixels).drop (to_bytes B.pixels).length = [] := by
    rw [← hlen, List.drop_length]
  have hd2 : (to_bytes B.pixels).drop (to_bytes A.pixels).length = [] := by
    rw [hlen, List.drop_length]
  rw [hd1, hd2, List.append_nil, List.append_nil,
    List.zipWith_comm_of_comm _ (fun x y => Nat.xor_comm x y)]

/-- C8, witness: two concrete 2×2 images of equal size. -/
theorem diff_commutative_witness :
    (((new_w_h 2 2).set_pixel 0 0 true).wf ∧
     ((new_w_h 2 2).set_pixel 1 1 true).wf) ∧
    ((new_w_h 2 2).set_pixel 0 0 true).diff ((new_w_h 2 2).set_pixel 1 1 true)
      = ((new_w_h 2 2).set_pixel 1 1 true).diff ((new_w_h 2 2).set_pixel 0 0 true) :=
  ⟨⟨by decide, by decide⟩,
    diff_commutative _ _ (by decide) (by decide) rfl rfl⟩

/-- C9: the Boolean Algebra operations gate on dimensions: `operation`
(for every byte combinator, hence `diff`, `union`, `intersect`) and
`diff_and_count` fail (the embedded `assert_eq!` yields `none`) exactly
when the widths or heights differ, and on equal dimensions succeed
with an image of the common dimensions. -/
theorem operation_requires_equal_dimensions
    (A B : BinaryImage) (f : Nat → Nat → Nat) :
    ((A.operation B f).map (fun C => (C.width, C.height))
      = if A.width = B.width ∧ A.height = B.height
        then some (A.width, A.height) else none)
    ∧ (A.diff B = none ↔ ¬(A.width = B.width ∧ A.height = B.height))
    ∧ (A.union B = none ↔ ¬(A.width = B.width ∧ A.height = B.height))
    ∧ (A.intersect B = none ↔ ¬(A.width = B.width ∧ A.height = B.height))
    ∧ ((A.diff_and_count B).isSome
        = decide (A.width = B.width ∧ A.height = B.height)) := by
  refine ⟨?_, ?_, ?_, ?_, ?_⟩ <;>
    simp only [diff, union, intersect, operation, diff_and_count] <;>
    split <;> simp_all

/-- C10: `remove_disjoint_components` on an image with no true pixel
panics — the component list is empty and the `max_by_key … .unwrap()`
unwraps a `None` (embedded as `none`); it does not return an image. -/
theorem remove_disjoint_components_empty_panics (img : BinaryImage)
    (h : ∀ x, x < img.width → ∀ y, y < img.height → img.get_pixel x y = false) :
    remove_disjoint_components img = none := by
  have hfold : ∀ (L : List (Nat × Nat)) st,
      (∀ p ∈ L, img.get_pixel p.1 p.2 = false) →
      L.foldl (scanStep img) st = st := by
    intro L
    induction L with
    | nil => intro st _; rfl
    | cons p t ih =>
      intro st hp
      rw [List.foldl_cons]
      have h1 : img.get_pixel p.1 p.2 = false := hp p (List.mem_cons_self p t)
      have h2 : scanStep img st p = st := by
        unfold scanStep
        rw [h1]
        simp
      rw [h2]
      exact ih st (fun q hq => hp q (List.mem_cons_of_mem p hq))
  have hcomps : findComponents img = [] := by
    unfold findComponents
    rw [hfold]
    · intro p hp
      simp only [List.mem_flatMap, List.mem_map, List.mem_range] at hp
      obtain ⟨y, hy, x, hx, rfl⟩ := hp
      exact h x hx y hy
  unfold remove_disjoint_components
  show removeAux (img.width * img.height + 1) img = none
  rw [removeAux]
  rw [hcomps]
  rfl

/-- C10, witness: the all-false 2×2 image satisfies the hypothesis and
`remove_disjoint_components` indeed evaluates to `none` on it. -/
theorem remove_disjoint_components_empty_panics_witness :
    (∀ x, x < (new_w_h 2 2).width → ∀ y, y < (new_w_h 2 2).height →
      (new_w_h 2 2).get_pixel x y = false) ∧
    remove_disjoint_components (new_w_h 2 2) = none :=
  ⟨by decide, remove_disjoint_components_empty_panics (new_w_h 2 2) (by decide)⟩

end VisionCortex
